import Mathlib

/-!
Verification of the tecken symbol-upload ingestion pipeline.

The definitions below are a shallow embedding of `src/tecken/upload/views.py`:
archive-listing validation (`check_symbols_archive_file_listing`), bucket
resolution (`get_bucket_info`, `get_possible_bucket_urls`), the per-member
ignore rule (`_ignore_member_file`), the content-hash computation, and the
per-member upload fan-out loop of `upload_archive`.

Python strings become `String`, member lists become `List FileMember`, the
Django settings object becomes an explicit `Settings` record, and the Django
user becomes a `User` record.  External collaborators that are not part of
the repository source (the stdlib `fnmatch` glob matcher, the abstract set of
characters that are invalid in a storage key) are passed in as explicit
function parameters.  Code of the repository that lives outside the provided
source tree (`tecken.upload.utils`, `tecken.storage`) is modelled from the
specification; each such definition is marked in its doc comment.
-/

namespace Tecken

/-- Boolean test that the first character list is a prefix of the second
(used to express the Python substring operator `in`). -/
def charsPrefixOf : List Char → List Char → Bool
  | [], _ => true
  | _ :: _, [] => false
  | a :: as, b :: bs => a == b && charsPrefixOf as bs

/-- Boolean test that the first character list occurs contiguously inside the
second; this is exactly the semantics of Python `needle in haystack` for
strings. -/
def charsInfixOf (n : List Char) : List Char → Bool
  | [] => charsPrefixOf n []
  | c :: t => charsPrefixOf n (c :: t) || charsInfixOf n t

/-- Python substring operator `needle in hay` on strings. -/
def pyIn (needle hay : String) : Bool := charsInfixOf needle.data hay.data

theorem charsPrefixOf_iff (n h : List Char) : charsPrefixOf n h = true ↔ n <+: h := by
  induction n generalizing h with
  | nil => simp [charsPrefixOf]
  | cons a as ih =>
    cases h with
    | nil => simp [charsPrefixOf]
    | cons b bs =>
      simp only [charsPrefixOf, Bool.and_eq_true, beq_iff_eq, ih, List.cons_prefix_cons]

theorem charsInfixOf_iff (n h : List Char) : charsInfixOf n h = true ↔ n <:+: h := by
  induction h with
  | nil => simp [charsInfixOf, charsPrefixOf_iff]
  | cons c t ih =>
    simp only [charsInfixOf, Bool.or_eq_true, charsPrefixOf_iff, ih]
    constructor
    · rintro (hp | hi)
      · exact hp.isInfix
      · exact hi.trans (List.suffix_cons c t).isInfix
    · intro hinf
      rcases hinf with ⟨s, t', ht⟩
      cases s with
      | nil => exact Or.inl ⟨t', ht⟩
      | cons x xs =>
        refine Or.inr ?_
        have : xs ++ n ++ t' = t := by
          have := ht
          simp only [List.cons_append] at this
          exact (List.cons.injEq x _ c t).mp this |>.2
        exact ⟨xs, t', this⟩

/-- Splitting a character list on the slash character; `[[]]` on the empty
list, matching Python `"".split("/") == [""]`. -/
def splitOnSlashChars : List Char → List (List Char)
  | [] => [[]]
  | c :: rest =>
    let r := splitOnSlashChars rest
    if c = '/' then [] :: r
    else
      match r with
      | [] => [[c]]
      | h :: t => (c :: h) :: t

/-- Python `name.split("/")` (the separator used throughout `views.py`). -/
def pySplitSlash (s : String) : List String :=
  (splitOnSlashChars s.data).map String.mk

/-- Python `s.lower()`; ASCII case folding (the suffixes and filenames the
code compares against are ASCII). -/
def pyLower (s : String) : String := String.mk (s.data.map Char.toLower)

/-- Python `s.endswith(sfx)`. -/
def strEndsWith (s sfx : String) : Bool :=
  charsPrefixOf sfx.data.reverse s.data.reverse

/-- Python `s.startswith(pre)`. -/
def strStartsWith (s pre : String) : Bool := charsPrefixOf pre.data s.data

/-- Lexicographic comparison of character lists by code point: the order
Python uses to compare the member-name strings in `sorted(...)`. -/
def charsLe : List Char → List Char → Bool
  | [], _ => true
  | _ :: _, [] => false
  | a :: as, b :: bs => if a = b then charsLe as bs else decide (a < b)

/-- Case-insensitive hexadecimal digit test; embeds the regular expression
`[^a-f0-9]` compiled with `re.I` from `views.py` (a string passes iff that
regex finds nothing in it). -/
def isHexCharCI (c : Char) : Bool :=
  ('0' ≤ c && c ≤ '9') || ('a' ≤ c && c ≤ 'f') || ('A' ≤ c && c ≤ 'F')

/-- Everything in the string is a (case-insensitive) hex digit; this is
`not _not_hex_characters.findall(s)` from `views.py`. -/
def stringAllHex (s : String) : Bool := s.data.all isHexCharCI

/-- Python `repr` of a string, for the `{...!r}` interpolation in the
invalid-character error message: the delimiting quote is a double quote when
the string contains a single quote but no double quote, otherwise a single
quote; backslashes and the delimiting quote are escaped.  (Python
additionally escapes non-printable characters; the member names the claims
exercise contain none.) -/
def pyRepr (s : String) : String :=
  let bs : Char := Char.ofNat 92
  let sq : Char := Char.ofNat 39
  let dq : Char := Char.ofNat 34
  let q := if s.data.contains sq && ! s.data.contains dq then dq else sq
  let body := s.data.flatMap fun c =>
    if c = bs then [bs, bs] else if c = q then [bs, c] else [c]
  String.mk (q :: body ++ [q])

/-- One entry of an extracted archive: relative name, size in bytes, and the
location of the extracted content on disk. -/
structure FileMember where
  name : String
  size : Nat
  path : String
deriving DecidableEq, Repr

/-- The slice of the Django settings object that `views.py` reads.
`UPLOAD_URL_EXCEPTIONS` is a Python dict; it is modelled as an association
list in insertion order (Python dicts preserve insertion order and this
order is what the wildcard loop in `get_bucket_info` iterates in). -/
structure Settings where
  DISALLOWED_SYMBOLS_SNIPPETS : List String
  UPLOAD_TRY_SYMBOLS_URL : String
  UPLOAD_DEFAULT_URL : String
  UPLOAD_URL_EXCEPTIONS : List (String × String)

/-- The slice of the Django user object that `views.py` reads.  `has_perm`
is the Django permission check, kept abstract as a field. -/
structure User where
  email : String
  is_superuser : Bool
  has_perm : String → Bool

/-- The fixed list of harmless filenames from `views.py`. -/
def _ignorable_filenames : List String := [".DS_Store"]

/-- Modelled from the spec: `tecken.base.utils.invalid_key_name_characters`
is not under the provided source tree.  The spec (section 4.2) describes it
as the test that a string contains a character that is illegal in a storage
object key; it is modelled as a scan for a character of an abstract class
`ic`. -/
def invalid_key_name_characters (ic : Char → Bool) (s : String) : Bool :=
  s.data.any ic

/-- The denylist error message built at `views.py` lines 65-68. -/
def snippetMessage (snippet : String) : String :=
  "Content of archive file contains the snippet \x27" ++ snippet ++
    "\x27 which is not allowed"

/-- The invalid-key-character error message built at `views.py` line 82. -/
def invalidCharMessage (name : String) : String :=
  "Invalid character in filename " ++ pyRepr name

/-- The catch-all rejection message built at `views.py` lines 92-96. -/
def unrecognizedMessage (name : String) : String :=
  "Unrecognized file pattern. Should only be <module>/<hex>/<file> " ++
    "or <name>-symbols.txt and nothing else. " ++
    "(First unrecognized pattern was " ++ name ++ ")"

/-- One iteration of the loop body of `check_symbols_archive_file_listing`
(`views.py` lines 62-96): the error this member causes, or `none` when the
loop would move on to the next member. -/
def checkMember (snippets : List String) (ic : Char → Bool) (fl : FileMember) :
    Option String :=
  match snippets.find? (fun snippet => pyIn snippet fl.name) with
  | some snippet => some (snippetMessage snippet)
  | none =>
    if (pySplitSlash fl.name).getLastD "" ∈ _ignorable_filenames then none
    else
      match pySplitSlash fl.name with
      | [s0, s1, s2] =>
        if invalid_key_name_characters ic (s0 ++ s2) then
          some (invalidCharMessage fl.name)
        else if stringAllHex s1 then none
        else some (unrecognizedMessage fl.name)
      | [_] =>
        if strEndsWith (pyLower fl.name) "-symbols.txt" then none
        else some (unrecognizedMessage fl.name)
      | _ => some (unrecognizedMessage fl.name)

/-- Embedding of `check_symbols_archive_file_listing` (`views.py` lines
60-96): walk the member list in order and return the first error, or `none`
when every member passes. -/
def check_symbols_archive_file_listing (snippets : List String)
    (ic : Char → Bool) : List FileMember → Option String
  | [] => none
  | fl :: rest =>
    match checkMember snippets ic fl with
    | some e => some e
    | none => check_symbols_archive_file_listing snippets ic rest

/-- Modelled from the spec: `tecken.storage.StorageBucket` is not under the
provided source tree.  The resolution claims only concern the resolved URL
and the try flag, so the bucket object is modelled as exactly that pair (the
spec, section 4.3, says the resolver "only computes intended identity"). -/
structure StorageBucket where
  url : String
  try_symbols : Bool
deriving DecidableEq, Repr

/-- Python truthiness of an optional POST string parameter: absent and the
empty string are falsy, everything else is truthy. -/
def pyTruthyOpt : Option String → Bool
  | none => false
  | some s => s != ""

/-- The derivation of the try flag at `views.py` lines 105-119: when the
`try_symbols` request value is absent it is `not
user.has_perm("upload.upload_symbols")`; when present (it is a raw POST
string) the subsequent `if try_symbols:` tests its Python truthiness. -/
def derive_try_symbols (user : User) : Option String → Bool
  | none => ! user.has_perm "upload.upload_symbols"
  | some s => s != ""

/-- Embedding of `get_possible_bucket_urls` (`views.py` lines 152-181).
`fnm` is the stdlib `fnmatch.fnmatch` collaborator, passed in as a
parameter. -/
def get_possible_bucket_urls (S : Settings) (fnm : String → String → Bool)
    (user : User) : List (String × String) :=
  let email_lower := pyLower user.email
  let urls := (S.UPLOAD_URL_EXCEPTIONS.filter fun pr =>
      email_lower == pyLower pr.1 || fnm email_lower (pyLower pr.1)
        || user.is_superuser).map fun pr => (pr.2, "private")
  if urls.isEmpty then [(S.UPLOAD_DEFAULT_URL, "public")] else urls

/-- Embedding of `get_bucket_info` (`views.py` lines 99-149).  A raised
`NoPossibleBucketName` becomes `Except.error` carrying the preferred name.
The truthiness test `if preferred_bucket_name:` and the dict/wildcard
exception lookup are mirrored exactly; `fnm` is the stdlib
`fnmatch.fnmatch` collaborator. -/
def get_bucket_info (S : Settings) (fnm : String → String → Bool)
    (user : User) (try_symbols : Option String)
    (preferred_bucket_name : Option String) : Except String StorageBucket :=
  let try_b := derive_try_symbols user try_symbols
  let url := if try_b then S.UPLOAD_TRY_SYMBOLS_URL else S.UPLOAD_DEFAULT_URL
  if pyTruthyOpt preferred_bucket_name then
    let p := preferred_bucket_name.getD ""
    match (get_possible_bucket_urls S fnm user).find? (fun pr => pyIn p pr.1) with
    | some pr => .ok ⟨pr.1, try_b⟩
    | none => .error p
  else
    let email_lower := pyLower user.email
    let exc : Option String :=
      match S.UPLOAD_URL_EXCEPTIONS.find? (fun pr => pr.1 == email_lower) with
      | some pr => some pr.2
      | none =>
        (S.UPLOAD_URL_EXCEPTIONS.find?
          (fun pr => fnm email_lower (pyLower pr.1))).map (·.2)
    match exc with
    | some e => if e != "" then .ok ⟨e, try_b⟩ else .ok ⟨url, try_b⟩
    | none => .ok ⟨url, try_b⟩

/-- The bucket-resolution step of `upload_archive` (`views.py` lines
292-313): resolve the bucket from the raw `try` and `bucket_name` POST
parameters; a `NoPossibleBucketName` is reported as the 403 response with
body message `No valid bucket`; afterwards the final try flag is the
bucket's flag when the `try` parameter was absent, and `bool(value)` of the
raw string otherwise. -/
def upload_archive_resolve (S : Settings) (fnm : String → String → Bool)
    (user : User) (tryParam : Option String) (pref : Option String) :
    Except (Nat × String) (StorageBucket × Bool) :=
  match get_bucket_info S fnm user tryParam pref with
  | .error _ => .error (403, "No valid bucket")
  | .ok b =>
    match tryParam with
    | none => .ok (b, b.try_symbols)
    | some s => .ok (b, s != "")

/-- Python `os.path.basename`: everything after the last slash. -/
def osPathBasename (s : String) : String := (pySplitSlash s).getLastD ""

/-- Python `os.path.join` for two components as used on S3-style keys in
`views.py`: an absolute second component wins, otherwise the components are
joined with a single slash. -/
def osPathJoin (a b : String) : String :=
  if strStartsWith b "/" then b
  else if a == "" || strEndsWith a "/" then a ++ b
  else a ++ "/" ++ b

/-- Embedding of `_ignore_member_file` (`views.py` lines 184-195). -/
def _ignore_member_file (filename : String) : Bool :=
  strEndsWith (pyLower filename) "-symbols.txt"
    || osPathBasename filename ∈ _ignorable_filenames

/-- Per-member outcome of the upload fan-out, as aggregated by
`upload_archive`: a created key, a skipped key, or a name ignored before any
storage check. -/
inductive FileUploadOutcome where
  | created (key : String)
  | skipped (key : String)
  | ignored (name : String)
deriving DecidableEq, Repr

/-- The destination bucket contents, as the storage collaborator exposes
them: key to object size. -/
def St : Type := String → Option Nat

/-- The empty destination bucket. -/
def emptySt : St := fun _ => none

/-- Modelled from the spec: `tecken.upload.utils.upload_file_upload` is not
under the provided source tree.  Per the spec (section 4.4): check
existence and size in storage at the destination key; if an object with
identical key and identical size exists the member is skipped (Python
returns `None`), otherwise its bytes are uploaded (Python returns a
`FileUpload` record, modelled as `some size`). -/
def upload_file_upload (st : St) (key : String) (size : Nat) :
    Option Nat × St :=
  match st key with
  | some s =>
    if s = size then (none, st)
    else (some size, fun k => if k = key then some size else st k)
  | none => (some size, fun k => if k = key then some size else st k)

/-- The per-member fan-out loop of `upload_archive` (`views.py` lines
379-411) in its sequential mode (the `SynchronousExecutor`, which completes
each submitted future immediately, so outcomes arrive in member-list
order): members whose name `_ignore_member_file` accepts are recorded as
ignored without any storage interaction; every other member has its
destination key `os.path.join(pfx, member.name)` submitted to
`upload_file_upload`, yielding a created or skipped outcome.  Returns the
outcome list, the final storage state, and the list of keys that were
actually checked against storage. -/
def upload_members (pfx : String) :
    List FileMember → St → List FileUploadOutcome × St × List String
  | [], st => ([], st, [])
  | m :: rest, st =>
    if _ignore_member_file m.name then
      let r := upload_members pfx rest st
      (.ignored m.name :: r.1, r.2.1, r.2.2)
    else
      let key := osPathJoin pfx m.name
      let u := upload_file_upload st key m.size
      let r := upload_members pfx rest u.2
      ((match u.1 with
        | some _ => .created key
        | none => .skipped key) :: r.1, r.2.1, key :: r.2.2)

/-- UTF-8 encoding of a single character (the `content.encode("utf-8")`
step of the content-hash computation). -/
def charUtf8 (c : Char) : List Nat :=
  let n := c.toNat
  if n < 128 then [n]
  else if n < 2048 then [192 + n / 64, 128 + n % 64]
  else if n < 65536 then [224 + n / 4096, 128 + (n / 64) % 64, 128 + n % 64]
  else [240 + n / 262144, 128 + (n / 4096) % 64, 128 + (n / 64) % 64, 128 + n % 64]

/-- UTF-8 encoding of a string as a byte list. -/
def strUtf8 (s : String) : List Nat := s.data.flatMap charUtf8

/-- Per-round left-rotation amounts of MD5 (RFC 1321). -/
def md5S : List Nat :=
  [7, 12, 17, 22, 7, 12, 17, 22, 7, 12, 17, 22, 7, 12, 17, 22,
   5, 9, 14, 20, 5, 9, 14, 20, 5, 9, 14, 20, 5, 9, 14, 20,
   4, 11, 16, 23, 4, 11, 16, 23, 4, 11, 16, 23, 4, 11, 16, 23,
   6, 10, 15, 21, 6, 10, 15, 21, 6, 10, 15, 21, 6, 10, 15, 21]

/-- Per-round additive constants of MD5 (RFC 1321). -/
def md5K : List Nat :=
  [3614090360, 3905402710, 606105819, 3250441966,
   4118548399, 1200080426, 2821735955, 4249261313,
   1770035416, 2336552879, 4294925233, 2304563134,
   1804603682, 4254626195, 2792965006, 1236535329,
   4129170786, 3225465664, 643717713, 3921069994,
   3593408605, 38016083, 3634488961, 3889429448,
   568446438, 3275163606, 4107603335, 1163531501,
   2850285829, 4243563512, 1735328473, 2368359562,
   4294588738, 2272392833, 1839030562, 4259657740,
   2763975236, 1272893353, 4139469664, 3200236656,
   681279174, 3936430074, 3572445317, 76029189,
   3654602809, 3873151461, 530742520, 3299628645,
   4096336452, 1126891415, 2878612391, 4237533241,
   1700485571, 2399980690, 4293915773, 2240044497,
   1873313359, 4264355552, 2734768916, 1309151649,
   4149444226, 3174756917, 718787259, 3951481745]

/-- Rotation of a 32-bit word left by `s` bits. -/
def rotl32 (x s : Nat) : Nat := ((x <<< s) ||| (x >>> (32 - s))) % 4294967296

/-- The four 32-bit state words of MD5. -/
structure MD5State where
  a : Nat
  b : Nat
  c : Nat
  d : Nat

/-- Word `i` of a 64-byte block, read little-endian. -/
def leWord (block : List Nat) (i : Nat) : Nat :=
  block.getD (4 * i) 0 + 256 * block.getD (4 * i + 1) 0
    + 65536 * block.getD (4 * i + 2) 0 + 16777216 * block.getD (4 * i + 3) 0

/-- One of the 64 MD5 rounds (all word arithmetic is mod `2^32`; 32-bit
complement is xor with `2^32 - 1`). -/
def md5Round (block : List Nat) (st : MD5State) (i : Nat) : MD5State :=
  let fg : Nat × Nat :=
    if i < 16 then ((st.b &&& st.c) ||| ((st.b ^^^ 4294967295) &&& st.d), i)
    else if i < 32 then
      ((st.d &&& st.b) ||| ((st.d ^^^ 4294967295) &&& st.c), (5 * i + 1) % 16)
    else if i < 48 then (st.b ^^^ st.c ^^^ st.d, (3 * i + 5) % 16)
    else (st.c ^^^ (st.b ||| (st.d ^^^ 4294967295)), (7 * i) % 16)
  let f2 := (fg.1 + st.a + md5K.getD i 0 + leWord block fg.2) % 4294967296
  ⟨st.d, (st.b + rotl32 f2 (md5S.getD i 0)) % 4294967296, st.b, st.c⟩

/-- Digesting one 64-byte block into the running MD5 state. -/
def md5Block (st : MD5State) (block : List Nat) : MD5State :=
  let r := (List.range 64).foldl (md5Round block) st
  ⟨(st.a + r.a) % 4294967296, (st.b + r.b) % 4294967296,
   (st.c + r.c) % 4294967296, (st.d + r.d) % 4294967296⟩

/-- Digesting `n` consecutive 64-byte blocks. -/
def md5Blocks : MD5State → List Nat → Nat → MD5State
  | st, _, 0 => st
  | st, rest, n + 1 => md5Blocks (md5Block st (rest.take 64)) (rest.drop 64) n

/-- The `k` low-order bytes of a natural number, little-endian. -/
def leBytes : Nat → Nat → List Nat
  | 0, _ => []
  | k + 1, n => n % 256 :: leBytes k (n / 256)

/-- MD5 padding: a `0x80` byte, zeros up to 56 mod 64, then the bit length
mod `2^64` as eight little-endian bytes. -/
def md5Pad (msg : List Nat) : List Nat :=
  let len := msg.length
  msg ++ [128] ++ List.replicate ((56 + 64 - (len + 1) % 64) % 64) 0
    ++ leBytes 8 ((8 * len) % 18446744073709551616)

/-- The 16-byte MD5 digest of a byte list. -/
def md5Digest (msg : List Nat) : List Nat :=
  let padded := md5Pad msg
  let st := md5Blocks ⟨1732584193, 4023233417, 2562383102, 271733878⟩
    padded (padded.length / 64)
  leBytes 4 st.a ++ leBytes 4 st.b ++ leBytes 4 st.c ++ leBytes 4 st.d

/-- Lowercase hexadecimal digit. -/
def hexChar (n : Nat) : Char := Char.ofNat (if n < 10 then 48 + n else 87 + n)

/-- Embedding of `hashlib.md5(s.encode("utf-8")).hexdigest()`. -/
def md5hex (s : String) : String :=
  String.mk ((md5Digest (strUtf8 s)).flatMap fun b => [hexChar (b / 16), hexChar (b % 16)])

/-- Stable insertion by name order into an already name-sorted list: the
new element goes in front of the first element whose name is not below it,
so an element inserted earlier in `sortByName` (that is, one occurring
later in the input) lands after equal-named elements that are inserted
after it. -/
def insertByName (m : FileMember) : List FileMember → List FileMember
  | [] => [m]
  | x :: xs =>
    if charsLe m.name.data x.name.data then m :: x :: xs
    else x :: insertByName m xs

/-- The Python `sorted(file_listing, key=lambda x: x.name)` from `views.py`
line 345: a stable sort by member name (insertion sort from the right is
stable, and a stable sort by a fixed key is extensionally unique, so this
agrees with the Python sort). -/
def sortByName : List FileMember → List FileMember
  | [] => []
  | m :: rest => insertByName m (sortByName rest)

/-- The joined `name:size` line string of `views.py` lines 344-346. -/
def contentString (file_listing : List FileMember) : String :=
  String.intercalate "\n"
    ((sortByName file_listing).map fun x => x.name ++ ":" ++ toString x.size)

/-- The content hash of `views.py` line 349: the first 30 hex characters of
the MD5 of the joined line string. -/
def content_hash (file_listing : List FileMember) : String :=
  (md5hex (contentString file_listing)).take 30

/-- Modelled from the spec: the duplicate-member check of
`tecken.upload.utils.dump_and_extract`, which is not under the provided
source tree.  Per the spec (section 4.1): while extracting members in
order, a member whose logical name was already extracted with a different
size raises `DuplicateFileDifferentSize`; a member whose name was already
extracted with the same size is tolerated as a harmless duplicate.  `seen`
accumulates name-to-size of the members extracted so far. -/
def checkDuplicates : List FileMember → List (String × Nat) → Option String
  | [], _ => none
  | m :: rest, seen =>
    match seen.find? (fun pr => pr.1 == m.name) with
    | some pr =>
      if pr.2 = m.size then checkDuplicates rest seen
      else some ("DuplicateFileDifferentSize: " ++ m.name)
    | none => checkDuplicates rest ((m.name, m.size) :: seen)

/-- Modelled from the spec: `dump_and_extract` produces the member list, or
fails with the duplicate-member conflict detected by `checkDuplicates`. -/
def dump_and_extract (members : List FileMember) : Except String (List FileMember) :=
  match checkDuplicates members [] with
  | none => .ok members
  | some e => .error e

/-- The extraction-then-validation-then-upload sequencing of
`upload_archive` (`views.py` lines 204-288 and 366-422), restricted to the
parts the claims exercise: a `DuplicateFileDifferentSize` from extraction
and a validation error are each returned as a 400 response before any
member is submitted for upload (the storage state is returned untouched);
otherwise the member list is fanned out by `upload_members`. -/
def upload_archive_model (snippets : List String) (ic : Char → Bool)
    (pfx : String) (raw : List FileMember) (st : St) :
    Except (Nat × String) (List FileUploadOutcome) × St :=
  match dump_and_extract raw with
  | .error e => (.error (400, e), st)
  | .ok file_listing =>
    match check_symbols_archive_file_listing snippets ic file_listing with
    | some err => (.error (400, err), st)
    | none =>
      let r := upload_members pfx file_listing st
      (.ok r.1, r.2.1)

/-! ### Claim C1: the validator accepts every fully well-formed listing -/

/-- The member-name condition of claim C1, stated as the claim states it:
the name splits into three segments with no invalid storage-key character
in the first and third and an all-hex middle, or it is a single segment
ending case-insensitively in `-symbols.txt`, or its final path segment is
an ignorable filename. -/
def claimValidName (ic : Char → Bool) (name : String) : Bool :=
  decide ((pySplitSlash name).getLastD "" ∈ _ignorable_filenames) ||
  (match pySplitSlash name with
   | [s0, s1, s2] =>
     !invalid_key_name_characters ic s0 && !invalid_key_name_characters ic s2
       && stringAllHex s1
   | [_] => strEndsWith (pyLower name) "-symbols.txt"
   | _ => false)

theorem invalid_key_name_characters_append (ic : Char → Bool) (s t : String) :
    invalid_key_name_characters ic (s ++ t)
      = (invalid_key_name_characters ic s || invalid_key_name_characters ic t) := by
  simp [invalid_key_name_characters, String.data_append]

theorem checkMember_eq_none (snippets : List String) (ic : Char → Bool)
    (fl : FileMember)
    (hsn : ∀ sn ∈ snippets, pyIn sn fl.name = false)
    (hv : claimValidName ic fl.name = true) :
    checkMember snippets ic fl = none := by
  have hfind : snippets.find? (fun snippet => pyIn snippet fl.name) = none :=
    List.find?_eq_none.mpr fun x hx => by simp [hsn x hx]
  by_cases hig : (pySplitSlash fl.name).getLastD "" ∈ _ignorable_filenames
  · simp only [checkMember, hfind]
    rw [if_pos hig]
  · have hmatch : (match pySplitSlash fl.name with
        | [s0, s1, s2] =>
          !invalid_key_name_characters ic s0 && !invalid_key_name_characters ic s2
            && stringAllHex s1
        | [_] => strEndsWith (pyLower fl.name) "-symbols.txt"
        | _ => false) = true := by
      unfold claimValidName at hv
      rw [Bool.or_eq_true, decide_eq_true_iff] at hv
      exact hv.resolve_left hig
    simp only [checkMember, hfind]
    rw [if_neg hig]
    rcases hL : pySplitSlash fl.name with _ | ⟨s0, _ | ⟨s1, _ | ⟨s2, _ | ⟨s3, tl⟩⟩⟩⟩ <;>
        rw [hL] at hmatch <;> simp only [] at hmatch
    · exact absurd hmatch (by simp)
    · simp only [hmatch, if_true]
    · exact absurd hmatch (by simp)
    · rw [Bool.and_eq_true, Bool.and_eq_true, Bool.not_eq_true',
        Bool.not_eq_true'] at hmatch
      simp [invalid_key_name_characters_append, hmatch.1.1, hmatch.1.2, hmatch.2]
    · exact absurd hmatch (by simp)

/-- Claim C1: for every member list in which each member name satisfies the
three-segment rule, the `-symbols.txt` rule, or the ignorable-filename
rule, and no member name contains a denylisted snippet,
`check_symbols_archive_file_listing` returns no error. -/
theorem C1_valid_listing_accepted (snippets : List String) (ic : Char → Bool)
    (members : List FileMember)
    (h : ∀ m ∈ members, (∀ sn ∈ snippets, pyIn sn m.name = false)
          ∧ claimValidName ic m.name = true) :
    check_symbols_archive_file_listing snippets ic members = none := by
  induction members with
  | nil => rfl
  | cons m rest ih =>
    have hm := h m (List.mem_cons_self m rest)
    unfold check_symbols_archive_file_listing
    rw [checkMember_eq_none snippets ic m hm.1 hm.2]
    exact ih fun x hx => h x (List.mem_cons_of_mem m hx)

/-- Witness for C1 at a concrete archive listing. -/
theorem C1_witness :
    check_symbols_archive_file_listing ["deny"] (fun c => decide (c.toNat = 33))
      [⟨"xul.pdb/ABCD1234abcd/xul.sym", 10, "p1"⟩,
       ⟨"readme-SYMBOLS.txt", 3, "p2"⟩,
       ⟨"somedir/.DS_Store", 1, "p3"⟩] = none :=
  C1_valid_listing_accepted _ _ _ (by decide)

/-! ### Claim C2: first violation wins and the message names the cause -/

theorem pyIn_middle (a mid b : String) : pyIn mid (a ++ mid ++ b) = true := by
  rw [pyIn]
  exact (charsInfixOf_iff _ _).mpr
    ⟨a.data, b.data, by simp [String.data_append]⟩

/-- Claim C2: validation scans members in list order; with every member
before `m` passing and `m` violating, the result is exactly `m`'s single
error (no aggregation); when `m`'s violation is a denylisted snippet the
message contains that snippet (the first matching one, as the code scans
the configured snippets in order); when `m` passes the denylist and is
rejected by the name-pattern rules with the catch-all rejection, the
message contains `m`'s name verbatim. -/
theorem C2_first_violation_reported (snippets : List String) (ic : Char → Bool)
    (pre : List FileMember) (m : FileMember) (rest : List FileMember)
    (hpre : ∀ m0 ∈ pre, checkMember snippets ic m0 = none)
    (hbad : checkMember snippets ic m ≠ none) :
    check_symbols_archive_file_listing snippets ic (pre ++ m :: rest)
        = checkMember snippets ic m
    ∧ (∀ sn, snippets.find? (fun s => pyIn s m.name) = some sn →
        checkMember snippets ic m = some (snippetMessage sn)
          ∧ pyIn sn (snippetMessage sn) = true)
    ∧ (snippets.find? (fun s => pyIn s m.name) = none →
        ∀ msg, checkMember snippets ic m = some msg →
          msg ≠ invalidCharMessage m.name → pyIn m.name msg = true) := by
  refine ⟨?_, ?_, ?_⟩
  · obtain ⟨e, he⟩ := Option.ne_none_iff_exists'.mp hbad
    induction pre with
    | nil =>
      unfold check_symbols_archive_file_listing
      rw [List.nil_append] at *
      simp [he]
    | cons p pre ih =>
      have hp := hpre p (List.mem_cons_self p pre)
      unfold check_symbols_archive_file_listing
      rw [List.cons_append]
      simp only [hp]
      exact ih fun x hx => hpre x (List.mem_cons_of_mem p hx)
  · intro sn hsn
    refine ⟨by simp [checkMember, hsn], ?_⟩
    rw [snippetMessage]
    exact pyIn_middle _ _ _
  · intro hnone msg hmsg hne
    rw [checkMember, hnone] at hmsg
    by_cases hig : (pySplitSlash m.name).getLastD "" ∈ _ignorable_filenames
    · rw [if_pos hig] at hmsg
      exact absurd hmsg (by simp)
    · rw [if_neg hig] at hmsg
      have hun : msg = unrecognizedMessage m.name := by
        rcases hL : pySplitSlash m.name with _ | ⟨s0, _ | ⟨s1, _ | ⟨s2, _ | ⟨s3, tl⟩⟩⟩⟩ <;>
          rw [hL] at hmsg <;> simp only [] at hmsg
        · exact (Option.some_inj.mp hmsg).symm
        · by_cases hs : strEndsWith (pyLower m.name) "-symbols.txt" = true
          · rw [if_pos hs] at hmsg
            exact absurd hmsg (by simp)
          · rw [if_neg hs] at hmsg
            exact (Option.some_inj.mp hmsg).symm
        · exact (Option.some_inj.mp hmsg).symm
        · by_cases hinv : invalid_key_name_characters ic (s0 ++ s2) = true
          · rw [if_pos hinv] at hmsg
            exact absurd (Option.some_inj.mp hmsg).symm hne
          · rw [if_neg hinv] at hmsg
            by_cases hhex : stringAllHex s1 = true
            · rw [if_pos hhex] at hmsg
              exact absurd hmsg (by simp)
            · rw [if_neg hhex] at hmsg
              exact (Option.some_inj.mp hmsg).symm
        · exact (Option.some_inj.mp hmsg).symm
      rw [hun, unrecognizedMessage]
      exact pyIn_middle _ _ _

/-- Witness for C2 at a concrete archive listing whose second member hits
the denylist. -/
theorem C2_witness :
    check_symbols_archive_file_listing ["deny"] (fun _ => false)
        [⟨"ok-symbols.txt", 1, "p1"⟩, ⟨"xdenyx", 2, "p2"⟩, ⟨"also bad", 3, "p3"⟩]
      = checkMember ["deny"] (fun _ => false) ⟨"xdenyx", 2, "p2"⟩ :=
  (C2_first_violation_reported ["deny"] (fun _ => false)
    [⟨"ok-symbols.txt", 1, "p1"⟩] ⟨"xdenyx", 2, "p2"⟩ [⟨"also bad", 3, "p3"⟩]
    (by decide) (by decide)).1

/-! ### Claim C3: preferred-bucket resolution succeeds exactly on permitted URLs -/

/-- Claim C3: with a preferred bucket name supplied (a non-empty string),
resolution succeeds if and only if the preferred name occurs inside one of
the URLs the identity is permitted to use (`get_possible_bucket_urls`:
matching exception entries, every entry for a superuser, or else the single
public default URL); on success the resolved bucket is the first matching
permitted URL; otherwise `NoPossibleBucketName` carrying the preferred name
is raised, which `upload_archive` reports as a 403 response with message
`No valid bucket`. -/
theorem C3_preferred_bucket_resolution (S : Settings)
    (fnm : String → String → Bool) (user : User) (ts : Option String)
    (p : String) (hp : p ≠ "") :
    ((∃ pr ∈ get_possible_bucket_urls S fnm user, pyIn p pr.1 = true)
        ↔ ∃ b, get_bucket_info S fnm user ts (some p) = .ok b)
    ∧ (∀ pr, (get_possible_bucket_urls S fnm user).find? (fun q => pyIn p q.1)
          = some pr →
        get_bucket_info S fnm user ts (some p)
          = .ok ⟨pr.1, derive_try_symbols user ts⟩)
    ∧ ((get_possible_bucket_urls S fnm user).find? (fun q => pyIn p q.1)
          = none →
        get_bucket_info S fnm user ts (some p) = .error p
          ∧ upload_archive_resolve S fnm user ts (some p)
              = .error (403, "No valid bucket")) := by
  have htr : pyTruthyOpt (some p) = true := by simp [pyTruthyOpt, hp]
  cases hfind : (get_possible_bucket_urls S fnm user).find? (fun q => pyIn p q.1) with
  | some pr =>
    have hok : get_bucket_info S fnm user ts (some p)
        = .ok ⟨pr.1, derive_try_symbols user ts⟩ := by
      simp [get_bucket_info, htr, hfind]
    refine ⟨⟨fun _ => ⟨_, hok⟩, fun _ => ?_⟩, fun q hq => ?_, fun hq => ?_⟩
    · exact ⟨pr, List.mem_of_find?_eq_some hfind,
        by simpa using List.find?_some hfind⟩
    · cases hq
      exact hok
    · cases hq
  | none =>
    have herr : get_bucket_info S fnm user ts (some p) = .error p := by
      simp [get_bucket_info, htr, hfind]
    refine ⟨⟨fun hex => ?_, fun hb => ?_⟩, fun q hq => ?_, fun _ => ?_⟩
    · obtain ⟨pr, hpr, hmatch⟩ := hex
      exact absurd hmatch (by simpa using List.find?_eq_none.mp hfind pr hpr)
    · obtain ⟨b, hb⟩ := hb
      rw [herr] at hb
      cases hb
    · cases hq
    · exact ⟨herr, by simp [upload_archive_resolve, herr]⟩

/-- Witness for C3 at a concrete configuration with an exception-list
entry whose URL contains the preferred name. -/
theorem C3_witness :
    get_bucket_info ⟨[], "try-url", "default-url",
        [("boss@mozilla.com", "https://s3.example.com/private-bucket")]⟩
      (fun _ _ => false) ⟨"boss@mozilla.com", false, fun _ => false⟩
      (some "1") (some "private-bucket")
      = .ok ⟨"https://s3.example.com/private-bucket", true⟩ :=
  (C3_preferred_bucket_resolution _ _ _ _ _ (by decide)).2.1
    ("https://s3.example.com/private-bucket", "private") (by decide)

/-! ### Claim C4: resolution with no exception match and everything unset -/

/-- Counterexample to claim C4: an identity with no exception-list entry,
no preferred bucket name, an unset try flag and without the
`upload.upload_symbols` permission resolves to the TRY bucket URL, not to
the public default bucket URL as the claim states. -/
theorem C4_counterexample :
    get_bucket_info ⟨[], "try-url", "default-url", []⟩ (fun _ _ => false)
        ⟨"user@example.com", false, fun _ => false⟩ none none
      = .ok ⟨"try-url", true⟩
    ∧ "try-url" ≠ "default-url" := ⟨rfl, by decide⟩

/-- Claim C4 as amended: for an identity matching no exception-list entry,
with the preferred bucket name and the try flag both unset, resolution
returns the try flag equal to the negation of holding the
`upload.upload_symbols` permission, and the bucket is the public default
URL when the identity holds that permission and the try-bucket URL when it
does not. -/
theorem C4_amended_default_resolution (S : Settings)
    (fnm : String → String → Bool) (user : User)
    (hex : ∀ pr ∈ S.UPLOAD_URL_EXCEPTIONS,
      pr.1 ≠ pyLower user.email
        ∧ fnm (pyLower user.email) (pyLower pr.1) = false) :
    get_bucket_info S fnm user none none
      = .ok ⟨(if user.has_perm "upload.upload_symbols" then S.UPLOAD_DEFAULT_URL
              else S.UPLOAD_TRY_SYMBOLS_URL),
             ! user.has_perm "upload.upload_symbols"⟩ := by
  have h1 : S.UPLOAD_URL_EXCEPTIONS.find? (fun pr => pr.1 == pyLower user.email)
      = none :=
    List.find?_eq_none.mpr fun pr hpr => by simp [(hex pr hpr).1]
  have h2 : S.UPLOAD_URL_EXCEPTIONS.find?
      (fun pr => fnm (pyLower user.email) (pyLower pr.1)) = none :=
    List.find?_eq_none.mpr fun pr hpr => by simp [(hex pr hpr).2]
  cases hperm : user.has_perm "upload.upload_symbols" <;>
    simp [get_bucket_info, pyTruthyOpt, derive_try_symbols, h1, h2, hperm]

/-- Witness for the amended C4 at a concrete configuration with a
non-matching exception entry and an identity holding the release
permission. -/
theorem C4_amended_witness :
    get_bucket_info ⟨[], "try-url", "default-url", [("boss@mozilla.com", "u")]⟩
        (fun _ _ => false)
        ⟨"user@example.com", false, fun q => q == "upload.upload_symbols"⟩
        none none
      = .ok ⟨"default-url", false⟩ := by
  have h := C4_amended_default_resolution
    ⟨[], "try-url", "default-url", [("boss@mozilla.com", "u")]⟩
    (fun _ _ => false)
    ⟨"user@example.com", false, fun q => q == "upload.upload_symbols"⟩
    (by decide)
  simpa using h

/-! ### Claim C10: the raw `try` POST parameter is interpreted by truthiness -/

/-- Claim C10: when the POST body carries a `try` key, the upload's try
flag is the Python truthiness of the raw string value: any non-empty value
(including `"false"` and `"0"`) makes it a try upload routed to the try
bucket, the empty string makes it a non-try upload routed to the default
bucket; only an absent `try` parameter derives the flag from the
`upload.upload_symbols` permission (all under an identity with no
exception-list match and no preferred bucket name). -/
theorem C10_try_parameter_truthiness (S : Settings)
    (fnm : String → String → Bool) (user : User)
    (hex : ∀ pr ∈ S.UPLOAD_URL_EXCEPTIONS,
      pr.1 ≠ pyLower user.email
        ∧ fnm (pyLower user.email) (pyLower pr.1) = false) :
    (∀ s : String, s ≠ "" →
      upload_archive_resolve S fnm user (some s) none
        = .ok (⟨S.UPLOAD_TRY_SYMBOLS_URL, true⟩, true))
    ∧ upload_archive_resolve S fnm user (some "") none
        = .ok (⟨S.UPLOAD_DEFAULT_URL, false⟩, false)
    ∧ upload_archive_resolve S fnm user none none
        = .ok (⟨(if user.has_perm "upload.upload_symbols" then S.UPLOAD_DEFAULT_URL
                 else S.UPLOAD_TRY_SYMBOLS_URL),
                ! user.has_perm "upload.upload_symbols"⟩,
               ! user.has_perm "upload.upload_symbols") := by
  have h1 : S.UPLOAD_URL_EXCEPTIONS.find? (fun pr => pr.1 == pyLower user.email)
      = none :=
    List.find?_eq_none.mpr fun pr hpr => by simp [(hex pr hpr).1]
  have h2 : S.UPLOAD_URL_EXCEPTIONS.find?
      (fun pr => fnm (pyLower user.email) (pyLower pr.1)) = none :=
    List.find?_eq_none.mpr fun pr hpr => by simp [(hex pr hpr).2]
  refine ⟨fun s hs => ?_, ?_, ?_⟩
  · simp [upload_archive_resolve, get_bucket_info, pyTruthyOpt,
      derive_try_symbols, h1, h2, hs]
  · simp [upload_archive_resolve, get_bucket_info, pyTruthyOpt,
      derive_try_symbols, h1, h2]
  · cases hperm : user.has_perm "upload.upload_symbols" <;>
      simp [upload_archive_resolve, get_bucket_info, pyTruthyOpt,
        derive_try_symbols, h1, h2, hperm]

/-- Witness for C10: the raw value `"false"` is truthy, so it forces a try
upload into the try bucket. -/
theorem C10_witness :
    upload_archive_resolve ⟨[], "try-url", "default-url", []⟩
        (fun _ _ => false)
        ⟨"user@example.com", false, fun q => q == "upload.upload_symbols"⟩
        (some "false") none
      = .ok (⟨"try-url", true⟩, true) :=
  (C10_try_parameter_truthiness ⟨[], "try-url", "default-url", []⟩
    (fun _ _ => false)
    ⟨"user@example.com", false, fun q => q == "upload.upload_symbols"⟩
    (by decide)).1 "false" (by decide)

/-! ### The upload fan-out: helper lemmas -/

theorem upload_file_upload_fst (st : St) (key : String) (size : Nat) :
    (upload_file_upload st key size).1
      = if st key = some size then none else some size := by
  unfold upload_file_upload
  cases h : st key with
  | none => simp [h]
  | some s => by_cases hs : s = size <;> simp [h, hs]

theorem upload_file_upload_skip (st : St) (key : String) (size : Nat)
    (h : st key = some size) : upload_file_upload st key size = (none, st) := by
  simp [upload_file_upload, h]

theorem upload_file_upload_snd_self (st : St) (key : String) (size : Nat) :
    (upload_file_upload st key size).2 key = some size := by
  unfold upload_file_upload
  cases h : st key with
  | none => simp
  | some s => by_cases hs : s = size <;> simp [h, hs]

theorem upload_file_upload_snd_ne (st : St) (key : String) (size : Nat)
    (k : String) (h : k ≠ key) :
    (upload_file_upload st key size).2 k = st k := by
  unfold upload_file_upload
  cases hs : st key with
  | none => simp [h]
  | some s => by_cases heq : s = size <;> simp [h, heq]

theorem upload_members_cons_ignored (pfx : String) (m : FileMember)
    (l : List FileMember) (st : St) (h : _ignore_member_file m.name = true) :
    upload_members pfx (m :: l) st
      = (.ignored m.name :: (upload_members pfx l st).1,
         (upload_members pfx l st).2.1, (upload_members pfx l st).2.2) := by
  simp [upload_members, h]

theorem upload_members_cons_active (pfx : String) (m : FileMember)
    (l : List FileMember) (st : St) (h : _ignore_member_file m.name = false) :
    upload_members pfx (m :: l) st
      = ((match (upload_file_upload st (osPathJoin pfx m.name) m.size).1 with
          | some _ => .created (osPathJoin pfx m.name)
          | none => .skipped (osPathJoin pfx m.name)) ::
           (upload_members pfx l
             (upload_file_upload st (osPathJoin pfx m.name) m.size).2).1,
         (upload_members pfx l
           (upload_file_upload st (osPathJoin pfx m.name) m.size).2).2.1,
         osPathJoin pfx m.name ::
           (upload_members pfx l
             (upload_file_upload st (osPathJoin pfx m.name) m.size).2).2.2) := by
  simp [upload_members, h]

/-! ### Claim C6: every member is accounted for in exactly one outcome class -/

/-- Claim C6: the fan-out pairs every member with exactly one outcome
(`Forall₂` forces equal lengths and a positional one-to-one pairing): the
outcome is `ignored` exactly when `_ignore_member_file` accepts the name,
and otherwise is `created` or `skipped` at the member's destination key;
moreover the keys checked against storage are exactly those of the
non-ignored members, so ignored members are never checked. -/
theorem C6_outcome_completeness (pfx : String) (members : List FileMember)
    (st : St) :
    List.Forall₂ (fun (m : FileMember) (o : FileUploadOutcome) =>
        if _ignore_member_file m.name then o = .ignored m.name
        else o = .created (osPathJoin pfx m.name)
          ∨ o = .skipped (osPathJoin pfx m.name))
      members (upload_members pfx members st).1
    ∧ (upload_members pfx members st).2.2
        = (members.filter fun m => ! _ignore_member_file m.name).map
            fun m => osPathJoin pfx m.name := by
  induction members generalizing st with
  | nil => exact ⟨List.Forall₂.nil, rfl⟩
  | cons m rest ih =>
    by_cases hig : _ignore_member_file m.name = true
    · rw [upload_members_cons_ignored pfx m rest st hig]
      refine ⟨List.Forall₂.cons (by simp [hig]) (ih st).1, ?_⟩
      simp [hig, (ih st).2]
    · rw [Bool.not_eq_true] at hig
      rw [upload_members_cons_active pfx m rest st hig]
      set u := upload_file_upload st (osPathJoin pfx m.name) m.size
      refine ⟨List.Forall₂.cons ?_ (ih u.2).1, ?_⟩
      · cases u.1 <;> simp [hig]
      · simp [hig, (ih u.2).2]

/-! ### Claim C5: uploading the same archive twice skips everything -/

theorem upload_members_preserve (pfx : String) (l : List FileMember)
    (st : St) (k : String) (v : Nat) (hst : st k = some v)
    (hcons : ∀ m ∈ l, _ignore_member_file m.name = false →
      osPathJoin pfx m.name = k → m.size = v) :
    (upload_members pfx l st).2.1 k = some v := by
  induction l generalizing st with
  | nil => exact hst
  | cons m rest ih =>
    by_cases hig : _ignore_member_file m.name = true
    · rw [upload_members_cons_ignored pfx m rest st hig]
      exact ih st hst fun x hx => hcons x (List.mem_cons_of_mem m hx)
    · rw [Bool.not_eq_true] at hig
      rw [upload_members_cons_active pfx m rest st hig]
      refine ih _ ?_ fun x hx => hcons x (List.mem_cons_of_mem m hx)
      by_cases hk : osPathJoin pfx m.name = k
      · have hsz : m.size = v := hcons m (List.mem_cons_self m rest) hig hk
        rw [← hk, upload_file_upload_snd_self, hsz]
      · rw [upload_file_upload_snd_ne st _ m.size k fun h => hk h.symm]
        exact hst

theorem upload_members_sets (pfx : String) (l : List FileMember) (st : St)
    (hcons : ∀ m ∈ l, ∀ m2 ∈ l,
      osPathJoin pfx m.name = osPathJoin pfx m2.name → m.size = m2.size) :
    ∀ m ∈ l, _ignore_member_file m.name = false →
      (upload_members pfx l st).2.1 (osPathJoin pfx m.name) = some m.size := by
  induction l generalizing st with
  | nil => intro m hm; cases hm
  | cons m0 rest ih =>
    intro m hm hig
    by_cases hig0 : _ignore_member_file m0.name = true
    · rw [upload_members_cons_ignored pfx m0 rest st hig0]
      rcases List.mem_cons.mp hm with heq | hm'
      · subst heq
        rw [hig] at hig0
        cases hig0
      · exact ih st (fun a ha b hb => hcons a (List.mem_cons_of_mem m0 ha)
          b (List.mem_cons_of_mem m0 hb)) m hm' hig
    · rw [Bool.not_eq_true] at hig0
      rw [upload_members_cons_active pfx m0 rest st hig0]
      rcases List.mem_cons.mp hm with heq | hm'
      · subst heq
        refine upload_members_preserve pfx rest _ _ _
          (upload_file_upload_snd_self st _ _) ?_
        intro x hx higx hkx
        exact hcons x (List.mem_cons_of_mem m hx) m
          (List.mem_cons_self m rest) hkx
      · exact ih _ (fun a ha b hb => hcons a (List.mem_cons_of_mem m0 ha)
          b (List.mem_cons_of_mem m0 hb)) m hm' hig

theorem upload_members_all_skipped (pfx : String) (l : List FileMember)
    (st : St)
    (hall : ∀ m ∈ l, _ignore_member_file m.name = false →
      st (osPathJoin pfx m.name) = some m.size) :
    upload_members pfx l st
      = (l.map (fun m => if _ignore_member_file m.name then .ignored m.name
            else .skipped (osPathJoin pfx m.name)),
         st,
         (l.filter fun m => ! _ignore_member_file m.name).map
           fun m => osPathJoin pfx m.name) := by
  induction l generalizing st with
  | nil => rfl
  | cons m rest ih =>
    by_cases hig : _ignore_member_file m.name = true
    · rw [upload_members_cons_ignored pfx m rest st hig,
        ih st fun x hx => hall x (List.mem_cons_of_mem m hx)]
      simp [hig]
    · rw [Bool.not_eq_true] at hig
      have hskip := upload_file_upload_skip st (osPathJoin pfx m.name) m.size
        (hall m (List.mem_cons_self m rest) hig)
      rw [upload_members_cons_active pfx m rest st hig, hskip,
        ih st fun x hx => hall x (List.mem_cons_of_mem m hx)]
      simp [hig]

/-- Claim C5: idempotence of the dedup-aware upload.  Running the fan-out a
second time from the storage state the first run produced (so that every
previously created key holds an object of identical size; the hypothesis is
the extraction guarantee that members sharing a destination key share a
size) yields `skipped` for every non-ignored member and performs no storage
write: the returned state is exactly the input state. -/
theorem C5_second_run_skips_everything (pfx : String)
    (members : List FileMember) (st0 : St)
    (hcons : ∀ m ∈ members, ∀ m2 ∈ members,
      osPathJoin pfx m.name = osPathJoin pfx m2.name → m.size = m2.size) :
    upload_members pfx members (upload_members pfx members st0).2.1
      = (members.map (fun m => if _ignore_member_file m.name
            then .ignored m.name else .skipped (osPathJoin pfx m.name)),
         (upload_members pfx members st0).2.1,
         (members.filter fun m => ! _ignore_member_file m.name).map
           fun m => osPathJoin pfx m.name) :=
  upload_members_all_skipped pfx members _
    fun m hm hig => upload_members_sets pfx members st0 hcons m hm hig

/-- Witness for C5 at a concrete archive listing (with a tolerated
duplicate member) against an initially empty bucket. -/
theorem C5_witness :
    upload_members "v1" [⟨"xul.pdb/A7D6F1BB1/xul.sym", 5, "p1"⟩,
        ⟨"xul.pdb/A7D6F1BB1/xul.sym", 5, "p2"⟩, ⟨"build-symbols.txt", 2, "p3"⟩]
      (upload_members "v1" [⟨"xul.pdb/A7D6F1BB1/xul.sym", 5, "p1"⟩,
        ⟨"xul.pdb/A7D6F1BB1/xul.sym", 5, "p2"⟩, ⟨"build-symbols.txt", 2, "p3"⟩]
        emptySt).2.1
      = ([.skipped "v1/xul.pdb/A7D6F1BB1/xul.sym",
          .skipped "v1/xul.pdb/A7D6F1BB1/xul.sym",
          .ignored "build-symbols.txt"],
         (upload_members "v1" [⟨"xul.pdb/A7D6F1BB1/xul.sym", 5, "p1"⟩,
           ⟨"xul.pdb/A7D6F1BB1/xul.sym", 5, "p2"⟩,
           ⟨"build-symbols.txt", 2, "p3"⟩] emptySt).2.1,
         ["v1/xul.pdb/A7D6F1BB1/xul.sym", "v1/xul.pdb/A7D6F1BB1/xul.sym"]) := by
  have h := C5_second_run_skips_everything "v1"
    [⟨"xul.pdb/A7D6F1BB1/xul.sym", 5, "p1"⟩,
     ⟨"xul.pdb/A7D6F1BB1/xul.sym", 5, "p2"⟩,
     ⟨"build-symbols.txt", 2, "p3"⟩] emptySt (by decide)
  rw [h]
  rfl

/-! ### Claim C7: same-name-same-size is tolerated, differing sizes abort -/

theorem checkDuplicates_eq_none (l : List FileMember)
    (seen : List (String × Nat))
    (hl : ∀ m ∈ l, ∀ m2 ∈ l, m.name = m2.name → m.size = m2.size)
    (hseen : ∀ m ∈ l, ∀ pr ∈ seen, pr.1 = m.name → pr.2 = m.size) :
    checkDuplicates l seen = none := by
  induction l generalizing seen with
  | nil => rfl
  | cons m rest ih =>
    unfold checkDuplicates
    cases hf : seen.find? (fun pr => pr.1 == m.name) with
    | some pr =>
      have hmem := List.mem_of_find?_eq_some hf
      have hname : pr.1 = m.name := by simpa using List.find?_some hf
      have hsz : pr.2 = m.size :=
        hseen m (List.mem_cons_self m rest) pr hmem hname
      show (if pr.2 = m.size then checkDuplicates rest seen
        else some ("DuplicateFileDifferentSize: " ++ m.name)) = none
      rw [if_pos hsz]
      exact ih seen (fun a ha b hb => hl a (List.mem_cons_of_mem m ha)
          b (List.mem_cons_of_mem m hb))
        fun a ha pr2 hpr2 hn =>
          hseen a (List.mem_cons_of_mem m ha) pr2 hpr2 hn
    | none =>
      show checkDuplicates rest ((m.name, m.size) :: seen) = none
      refine ih _ (fun a ha b hb => hl a (List.mem_cons_of_mem m ha)
          b (List.mem_cons_of_mem m hb)) ?_
      intro a ha pr hpr hn
      rcases List.mem_cons.mp hpr with heq | hpr'
      · subst heq
        exact hl m (List.mem_cons_self m rest) a (List.mem_cons_of_mem m ha) hn
      · exact hseen a (List.mem_cons_of_mem m ha) pr hpr' hn

theorem checkDuplicates_none_consistent (l : List FileMember)
    (seen : List (String × Nat))
    (huniq : ∀ pr ∈ seen, ∀ pr2 ∈ seen, pr.1 = pr2.1 → pr = pr2)
    (h : checkDuplicates l seen = none) :
    (∀ m ∈ l, ∀ m2 ∈ l, m.name = m2.name → m.size = m2.size)
    ∧ (∀ m ∈ l, ∀ pr ∈ seen, pr.1 = m.name → pr.2 = m.size) := by
  induction l generalizing seen with
  | nil =>
    exact ⟨fun m hm => absurd hm (List.not_mem_nil m),
      fun m hm => absurd hm (List.not_mem_nil m)⟩
  | cons m rest ih =>
    unfold checkDuplicates at h
    cases hf : seen.find? (fun pr => pr.1 == m.name) with
    | some pr =>
      rw [hf] at h
      have h2 : (if pr.2 = m.size then checkDuplicates rest seen
          else some ("DuplicateFileDifferentSize: " ++ m.name)) = none := h
      have hsz : pr.2 = m.size := by
        by_cases hc : pr.2 = m.size
        · exact hc
        · rw [if_neg hc] at h2
          cases h2
      rw [if_pos hsz] at h2
      obtain ⟨hrest, hrseen⟩ := ih seen huniq h2
      have hprm := List.mem_of_find?_eq_some hf
      have hprn : pr.1 = m.name := by simpa using List.find?_some hf
      have hm_any : ∀ a ∈ rest, a.name = m.name → a.size = m.size := by
        intro a ha hn
        have := hrseen a ha pr hprm (hprn.trans hn.symm)
        rw [← this, hsz]
      refine ⟨?_, ?_⟩
      · intro a ha b hb hn
        rcases List.mem_cons.mp ha with rfl | ha' <;>
          rcases List.mem_cons.mp hb with rfl | hb'
        · rfl
        · exact (hm_any b hb' hn.symm).symm
        · exact hm_any a ha' hn
        · exact hrest a ha' b hb' hn
      · intro a ha pr2 hpr2 hn
        rcases List.mem_cons.mp ha with rfl | ha'
        · have : pr2 = pr := huniq pr2 hpr2 pr hprm (hn.trans hprn.symm)
          rw [this, hsz]
        · exact hrseen a ha' pr2 hpr2 hn
    | none =>
      rw [hf] at h
      have h2 : checkDuplicates rest ((m.name, m.size) :: seen) = none := h
      have hnotin : ∀ pr ∈ seen, pr.1 ≠ m.name := by
        intro pr hpr
        have := List.find?_eq_none.mp hf pr hpr
        simpa using this
      have huniq2 : ∀ pr ∈ (m.name, m.size) :: seen,
          ∀ pr2 ∈ (m.name, m.size) :: seen, pr.1 = pr2.1 → pr = pr2 := by
        intro pr hpr pr2 hpr2 hn
        rcases List.mem_cons.mp hpr with rfl | hpr' <;>
          rcases List.mem_cons.mp hpr2 with rfl | hpr2'
        · rfl
        · exact absurd hn.symm (hnotin pr2 hpr2')
        · exact absurd hn (hnotin pr hpr')
        · exact huniq pr hpr' pr2 hpr2' hn
      obtain ⟨hrest, hrseen⟩ := ih ((m.name, m.size) :: seen) huniq2 h2
      have hm_any : ∀ a ∈ rest, a.name = m.name → a.size = m.size := by
        intro a ha hn
        exact (hrseen a ha (m.name, m.size) (List.mem_cons_self _ _)
          hn.symm).symm
      refine ⟨?_, ?_⟩
      · intro a ha b hb hn
        rcases List.mem_cons.mp ha with rfl | ha' <;>
          rcases List.mem_cons.mp hb with rfl | hb'
        · rfl
        · exact (hm_any b hb' hn.symm).symm
        · exact hm_any a ha' hn
        · exact hrest a ha' b hb' hn
      · intro a ha pr2 hpr2 hn
        rcases List.mem_cons.mp ha with rfl | ha'
        · exact absurd hn (hnotin pr2 hpr2)
        · exact hrseen a ha' pr2 (List.mem_cons_of_mem _ hpr2) hn

/-- Claim C7: extraction tolerates members with identical name and size
(when all same-name members agree in size the member list is produced
unchanged), but two members sharing a name with differing sizes make
`dump_and_extract` fail with the duplicate-member conflict, which
`upload_archive` returns as a 400 response before any upload: the storage
state is returned untouched and no outcome is produced. -/
theorem C7_duplicate_member_handling (snippets : List String)
    (ic : Char → Bool) (pfx : String) (raw : List FileMember) (st : St) :
    ((∀ m ∈ raw, ∀ m2 ∈ raw, m.name = m2.name → m.size = m2.size) →
      dump_and_extract raw = .ok raw)
    ∧ ((∃ m ∈ raw, ∃ m2 ∈ raw, m.name = m2.name ∧ m.size ≠ m2.size) →
      ∃ e, dump_and_extract raw = .error e
        ∧ upload_archive_model snippets ic pfx raw st
            = (.error (400, e), st)) := by
  constructor
  · intro hcons
    have h := checkDuplicates_eq_none raw [] hcons
      (fun m _ pr hpr => absurd hpr (List.not_mem_nil pr))
    simp [dump_and_extract, h]
  · intro hconflict
    cases hchk : checkDuplicates raw [] with
    | none =>
      obtain ⟨m, hm, m2, hm2, hn, hs⟩ := hconflict
      have := (checkDuplicates_none_consistent raw []
        (fun pr hpr => absurd hpr (List.not_mem_nil pr)) hchk).1 m hm m2 hm2 hn
      exact absurd this hs
    | some e =>
      refine ⟨e, by simp [dump_and_extract, hchk], ?_⟩
      simp [upload_archive_model, dump_and_extract, hchk]

/-- Witness for C7: a listing with a tolerated same-name-same-size
duplicate, and a listing with a same-name-different-size conflict that is
rejected with a 400 before any upload. -/
theorem C7_witness :
    dump_and_extract [⟨"a/00/f", 1, "p"⟩, ⟨"a/00/f", 1, "q"⟩]
        = .ok [⟨"a/00/f", 1, "p"⟩, ⟨"a/00/f", 1, "q"⟩]
    ∧ ∃ e, dump_and_extract [⟨"a/00/f", 1, "p"⟩, ⟨"a/00/f", 2, "q"⟩]
        = .error e
      ∧ upload_archive_model [] (fun _ => false) "v1"
          [⟨"a/00/f", 1, "p"⟩, ⟨"a/00/f", 2, "q"⟩] emptySt
          = (.error (400, e), emptySt) :=
  ⟨(C7_duplicate_member_handling [] (fun _ => false) "v1"
      [⟨"a/00/f", 1, "p"⟩, ⟨"a/00/f", 1, "q"⟩] emptySt).1 (by decide),
   (C7_duplicate_member_handling [] (fun _ => false) "v1"
      [⟨"a/00/f", 1, "p"⟩, ⟨"a/00/f", 2, "q"⟩] emptySt).2 (by decide)⟩

/-! ### Claim C8: outcome multiset is independent of task completion order -/

theorem upload_members_perm (pfx : String) :
    ∀ {l1 l2 : List FileMember}, l1.Perm l2 →
    (∀ m ∈ l1, ∀ m2 ∈ l1,
      osPathJoin pfx m.name = osPathJoin pfx m2.name → m.size = m2.size) →
    ∀ st : St,
      (upload_members pfx l1 st).1.Perm (upload_members pfx l2 st).1
      ∧ (upload_members pfx l1 st).2.1 = (upload_members pfx l2 st).2.1 := by
  intro l1 l2 hp
  induction hp with
  | nil => exact fun _ _ => ⟨List.Perm.refl _, rfl⟩
  | cons x hp ih =>
    intro hcons st
    have hcons' := fun a ha b hb =>
      hcons a (List.mem_cons_of_mem x ha) b (List.mem_cons_of_mem x hb)
    by_cases hig : _ignore_member_file x.name = true
    · rw [upload_members_cons_ignored pfx x _ st hig,
        upload_members_cons_ignored pfx x _ st hig]
      obtain ⟨hperm, hst⟩ := ih hcons' st
      exact ⟨List.Perm.cons _ hperm, hst⟩
    · rw [Bool.not_eq_true] at hig
      rw [upload_members_cons_active pfx x _ st hig,
        upload_members_cons_active pfx x _ st hig]
      obtain ⟨hperm, hst⟩ := ih hcons'
        (upload_file_upload st (osPathJoin pfx x.name) x.size).2
      exact ⟨List.Perm.cons _ hperm, hst⟩
  | swap x y l =>
    intro hcons st
    by_cases higx : _ignore_member_file x.name = true <;>
      by_cases higy : _ignore_member_file y.name = true
    · rw [upload_members_cons_ignored pfx y (x :: l) st higy,
        upload_members_cons_ignored pfx x l st higx,
        upload_members_cons_ignored pfx x (y :: l) st higx,
        upload_members_cons_ignored pfx y l st higy]
      exact ⟨List.Perm.swap _ _ _, rfl⟩
    · rw [Bool.not_eq_true] at higy
      rw [upload_members_cons_active pfx y (x :: l) st higy,
        upload_members_cons_ignored pfx x l
          (upload_file_upload st (osPathJoin pfx y.name) y.size).2 higx,
        upload_members_cons_ignored pfx x (y :: l) st higx,
        upload_members_cons_active pfx y l st higy]
      exact ⟨List.Perm.swap _ _ _, rfl⟩
    · rw [Bool.not_eq_true] at higx
      rw [upload_members_cons_ignored pfx y (x :: l) st higy,
        upload_members_cons_active pfx x l st higx,
        upload_members_cons_active pfx x (y :: l) st higx,
        upload_members_cons_ignored pfx y l
          (upload_file_upload st (osPathJoin pfx x.name) x.size).2 higy]
      exact ⟨List.Perm.swap _ _ _, rfl⟩
    · rw [Bool.not_eq_true] at higx higy
      by_cases hk : osPathJoin pfx x.name = osPathJoin pfx y.name
      · have hsz : x.size = y.size :=
          hcons x (by simp) y (by simp) hk
        have hskipx : upload_file_upload
            (upload_file_upload st (osPathJoin pfx y.name) y.size).2
            (osPathJoin pfx y.name) y.size
            = (none, (upload_file_upload st (osPathJoin pfx y.name) y.size).2) :=
          upload_file_upload_skip _ _ _ (upload_file_upload_snd_self _ _ _)
        rw [upload_members_cons_active pfx y (x :: l) st higy,
          upload_members_cons_active pfx x l
            (upload_file_upload st (osPathJoin pfx y.name) y.size).2 higx,
          upload_members_cons_active pfx x (y :: l) st higx,
          hk, hsz,
          upload_members_cons_active pfx y l
            (upload_file_upload st (osPathJoin pfx y.name) y.size).2 higy,
          hskipx]
        exact ⟨List.Perm.refl _, rfl⟩
      · have hk2 : osPathJoin pfx y.name ≠ osPathJoin pfx x.name :=
          fun h => hk h.symm
        have h1 : (upload_file_upload st (osPathJoin pfx y.name) y.size).2
            (osPathJoin pfx x.name) = st (osPathJoin pfx x.name) :=
          upload_file_upload_snd_ne _ _ _ _ hk
        have h2 : (upload_file_upload st (osPathJoin pfx x.name) x.size).2
            (osPathJoin pfx y.name) = st (osPathJoin pfx y.name) :=
          upload_file_upload_snd_ne _ _ _ _ hk2
        have hfx : (upload_file_upload
            (upload_file_upload st (osPathJoin pfx y.name) y.size).2
            (osPathJoin pfx x.name) x.size).1
            = (upload_file_upload st (osPathJoin pfx x.name) x.size).1 := by
          rw [upload_file_upload_fst, upload_file_upload_fst, h1]
        have hfy : (upload_file_upload
            (upload_file_upload st (osPathJoin pfx x.name) x.size).2
            (osPathJoin pfx y.name) y.size).1
            = (upload_file_upload st (osPathJoin pfx y.name) y.size).1 := by
          rw [upload_file_upload_fst, upload_file_upload_fst, h2]
        have hsteq : (upload_file_upload
            (upload_file_upload st (osPathJoin pfx y.name) y.size).2
            (osPathJoin pfx x.name) x.size).2
            = (upload_file_upload
                (upload_file_upload st (osPathJoin pfx x.name) x.size).2
                (osPathJoin pfx y.name) y.size).2 := by
          funext k
          by_cases hkx : k = osPathJoin pfx x.name
          · subst hkx
            rw [upload_file_upload_snd_self,
              upload_file_upload_snd_ne _ _ _ _ hk,
              upload_file_upload_snd_self]
          · by_cases hky : k = osPathJoin pfx y.name
            · subst hky
              rw [upload_file_upload_snd_ne _ _ _ _ hk2,
                upload_file_upload_snd_self, upload_file_upload_snd_self]
            · rw [upload_file_upload_snd_ne _ _ _ _ hkx,
                upload_file_upload_snd_ne _ _ _ _ hky,
                upload_file_upload_snd_ne _ _ _ _ hky,
                upload_file_upload_snd_ne _ _ _ _ hkx]
        rw [upload_members_cons_active pfx y (x :: l) st higy,
          upload_members_cons_active pfx x l
            (upload_file_upload st (osPathJoin pfx y.name) y.size).2 higx,
          upload_members_cons_active pfx x (y :: l) st higx,
          upload_members_cons_active pfx y l
            (upload_file_upload st (osPathJoin pfx x.name) x.size).2 higy,
          hfx, hfy, hsteq]
        exact ⟨List.Perm.swap _ _ _, rfl⟩
  | trans hp1 hp2 ih1 ih2 =>
    intro hcons st
    have hcons2 := fun a ha b hb =>
      hcons a (hp1.mem_iff.mpr ha) b (hp1.mem_iff.mpr hb)
    obtain ⟨hpA, hsA⟩ := ih1 hcons st
    obtain ⟨hpB, hsB⟩ := ih2 hcons2 st
    exact ⟨hpA.trans hpB, hsA.trans hsB⟩

/-- Claim C8: for a fixed archive against an empty destination bucket (with
the extraction guarantee that members sharing a destination key share a
size), processing the members sequentially in list order — the
`SynchronousExecutor`, concurrency 1 — and processing them as atomic tasks
completing in any other order — the thread pool with N > 1 workers, whose
`as_completed` loop aggregates outcomes in an arbitrary permutation of the
member order — produce the same multiset of created, skipped and ignored
outcomes. -/
theorem C8_concurrency_order_independence (pfx : String)
    (members members2 : List FileMember) (hp : members.Perm members2)
    (hcons : ∀ m ∈ members, ∀ m2 ∈ members,
      osPathJoin pfx m.name = osPathJoin pfx m2.name → m.size = m2.size) :
    (upload_members pfx members emptySt).1.Perm
      (upload_members pfx members2 emptySt).1 :=
  (upload_members_perm pfx hp hcons emptySt).1

/-- Witness for C8 at a concrete listing and a concrete reordering. -/
theorem C8_witness :
    (upload_members "v1" [⟨"a/00/f", 1, "p"⟩, ⟨"b-symbols.txt", 2, "q"⟩,
        ⟨"a/00/f", 1, "r"⟩] emptySt).1.Perm
      (upload_members "v1" [⟨"a/00/f", 1, "r"⟩, ⟨"a/00/f", 1, "p"⟩,
        ⟨"b-symbols.txt", 2, "q"⟩] emptySt).1 :=
  C8_concurrency_order_independence "v1" _ _ (by decide) (by decide)

/-! ### Claim C9: the content hash and the order of the member list -/

theorem charsLe_total (a b : List Char) :
    charsLe a b = true ∨ charsLe b a = true := by
  induction a generalizing b with
  | nil => exact Or.inl rfl
  | cons x xs ih =>
    cases b with
    | nil => exact Or.inr rfl
    | cons y ys =>
      by_cases hxy : x = y
      · subst hxy
        rcases ih ys with h | h <;> simp [charsLe, h]
      · rcases lt_or_gt_of_ne hxy with h | h
        · exact Or.inl (by rw [charsLe, if_neg hxy, decide_eq_true_iff]; exact h)
        · have hyx : ¬y = x := fun hc => hxy hc.symm
          exact Or.inr (by rw [charsLe, if_neg hyx, decide_eq_true_iff]; exact h)

theorem charsLe_trans (a b c : List Char) (h1 : charsLe a b = true)
    (h2 : charsLe b c = true) : charsLe a c = true := by
  induction a generalizing b c with
  | nil => rfl
  | cons x xs ih =>
    cases b with
    | nil => simp [charsLe] at h1
    | cons y ys =>
      cases c with
      | nil => simp [charsLe] at h2
      | cons z zs =>
        by_cases hxy : x = y <;> by_cases hyz : y = z
        · subst hxy
          subst hyz
          rw [charsLe, if_pos rfl] at h1 h2 ⊢
          exact ih ys zs h1 h2
        · subst hxy
          rw [charsLe, if_neg hyz] at h2
          rw [charsLe, if_neg hyz]
          exact h2
        · subst hyz
          rw [charsLe, if_neg hxy] at h1
          rw [charsLe, if_neg hxy]
          exact h1
        · rw [charsLe, if_neg hxy] at h1
          rw [charsLe, if_neg hyz] at h2
          have hlt : x < z := lt_trans (of_decide_eq_true h1) (of_decide_eq_true h2)
          rw [charsLe, if_neg (ne_of_lt hlt), decide_eq_true_iff]
          exact hlt

theorem charsLe_antisymm (a b : List Char) (h1 : charsLe a b = true)
    (h2 : charsLe b a = true) : a = b := by
  induction a generalizing b with
  | nil =>
    cases b with
    | nil => rfl
    | cons y ys => simp [charsLe] at h2
  | cons x xs ih =>
    cases b with
    | nil => simp [charsLe] at h1
    | cons y ys =>
      by_cases hxy : x = y
      · subst hxy
        rw [charsLe, if_pos rfl] at h1 h2
        rw [ih ys h1 h2]
      · rw [charsLe, if_neg hxy] at h1
        rw [charsLe, if_neg (fun hc => hxy hc.symm)] at h2
        exact absurd (of_decide_eq_true h2) (lt_asymm (of_decide_eq_true h1))

/-- The sorted-by-name ordering on members. -/
def nameLe (a b : FileMember) : Prop := charsLe a.name.data b.name.data = true

theorem insertByName_perm (m : FileMember) (l : List FileMember) :
    (insertByName m l).Perm (m :: l) := by
  induction l with
  | nil => exact List.Perm.refl _
  | cons x xs ih =>
    unfold insertByName
    by_cases h : charsLe m.name.data x.name.data = true
    · rw [if_pos h]
    · rw [if_neg h]
      exact (List.Perm.cons x ih).trans (List.Perm.swap m x xs)

theorem sortByName_perm (l : List FileMember) : (sortByName l).Perm l := by
  induction l with
  | nil => exact List.Perm.refl _
  | cons m rest ih =>
    exact (insertByName_perm m (sortByName rest)).trans (List.Perm.cons m ih)

theorem insertByName_pairwise (m : FileMember) (l : List FileMember)
    (h : l.Pairwise nameLe) : (insertByName m l).Pairwise nameLe := by
  induction l with
  | nil => simp [insertByName, List.pairwise_cons]
  | cons x xs ih =>
    obtain ⟨hx, hxs⟩ := List.pairwise_cons.mp h
    unfold insertByName
    by_cases hc : charsLe m.name.data x.name.data = true
    · rw [if_pos hc]
      refine List.pairwise_cons.mpr ⟨?_, h⟩
      intro b hb
      rcases List.mem_cons.mp hb with rfl | hb'
      · exact hc
      · exact charsLe_trans _ _ _ hc (hx b hb')
    · rw [if_neg hc]
      refine List.pairwise_cons.mpr ⟨?_, ih hxs⟩
      intro b hb
      have hb2 : b ∈ m :: xs := (insertByName_perm m xs).subset hb
      rcases List.mem_cons.mp hb2 with rfl | hb'
      · exact (charsLe_total b.name.data x.name.data).resolve_left hc
      · exact hx b hb'

theorem sortByName_pairwise (l : List FileMember) :
    (sortByName l).Pairwise nameLe := by
  induction l with
  | nil => exact List.Pairwise.nil
  | cons m rest ih => exact insertByName_pairwise m (sortByName rest) ih

theorem eq_of_perm_of_pairwise {α : Type} (r : α → α → Prop) :
    ∀ (l1 l2 : List α), l1.Perm l2 → l1.Pairwise r → l2.Pairwise r →
      (∀ a ∈ l1, ∀ b ∈ l1, r a b → r b a → a = b) → l1 = l2 := by
  intro l1
  induction l1 with
  | nil =>
    intro l2 hp _ _ _
    exact (hp.symm.eq_nil).symm
  | cons a t1 ih =>
    intro l2 hp hpw1 hpw2 anti
    cases l2 with
    | nil => cases (by simpa using hp.eq_nil : a :: t1 = [])
    | cons b t2 =>
      have hab : a = b := by
        by_cases h : a = b
        · exact h
        · have hbmem : b ∈ a :: t1 := hp.mem_iff.mpr (List.mem_cons_self b t2)
          have hbt1 : b ∈ t1 := by
            rcases List.mem_cons.mp hbmem with h1 | h1
            · exact absurd h1.symm h
            · exact h1
          have hamem : a ∈ b :: t2 := hp.mem_iff.mp (List.mem_cons_self a t1)
          have hat2 : a ∈ t2 := by
            rcases List.mem_cons.mp hamem with h1 | h1
            · exact absurd h1 h
            · exact h1
          have hrab : r a b := (List.pairwise_cons.mp hpw1).1 b hbt1
          have hrba : r b a := (List.pairwise_cons.mp hpw2).1 a hat2
          exact anti a (List.mem_cons_self a t1) b hbmem hrab hrba
      subst hab
      have ht := ih t2 hp.cons_inv (List.pairwise_cons.mp hpw1).2
        (List.pairwise_cons.mp hpw2).2
        fun x hx y hy => anti x (List.mem_cons_of_mem a hx)
          y (List.mem_cons_of_mem a hy)
      rw [ht]

set_option maxRecDepth 100000 in
/-- Counterexample to claim C9: two member lists that are permutations of
each other but contain two same-named members of different sizes (a listing
that the extractor would reject, but the claim quantifies over every member
list) produce different content hashes, because the stable sort keys only
on the name and leaves the differing `name:size` lines in their original
relative order. -/
theorem C9_counterexample :
    ([⟨"a", 1, "p"⟩, ⟨"a", 2, "q"⟩] : List FileMember).Perm
        [⟨"a", 2, "q"⟩, ⟨"a", 1, "p"⟩]
    ∧ content_hash [⟨"a", 1, "p"⟩, ⟨"a", 2, "q"⟩]
        ≠ content_hash [⟨"a", 2, "q"⟩, ⟨"a", 1, "p"⟩] :=
  ⟨List.Perm.swap _ _ _, by decide⟩

/-- Claim C9 as amended: for member lists in which equal-named members have
equal sizes (which extraction guarantees about every listing that reaches
the hash computation), the content hash is a function of only the
name/size multiset: any permutation of the member list yields the identical
hash. -/
theorem C9_content_hash_of_perm (la lb : List FileMember) (hp : la.Perm lb)
    (hcons : ∀ m ∈ la, ∀ m2 ∈ la, m.name = m2.name → m.size = m2.size) :
    content_hash la = content_hash lb := by
  suffices h : contentString la = contentString lb by
    rw [content_hash, content_hash, h]
  have hperm : ((sortByName la).map fun m => (m.name, m.size)).Perm
      ((sortByName lb).map fun m => (m.name, m.size)) :=
    ((sortByName_perm la).trans (hp.trans (sortByName_perm lb).symm)).map _
  have hpw1 : ((sortByName la).map fun m => (m.name, m.size)).Pairwise
      (fun p q : String × Nat => charsLe p.1.data q.1.data = true) :=
    List.pairwise_map.mpr (sortByName_pairwise la)
  have hpw2 : ((sortByName lb).map fun m => (m.name, m.size)).Pairwise
      (fun p q : String × Nat => charsLe p.1.data q.1.data = true) :=
    List.pairwise_map.mpr (sortByName_pairwise lb)
  have heq : ((sortByName la).map fun m => (m.name, m.size))
      = (sortByName lb).map fun m => (m.name, m.size) := by
    refine eq_of_perm_of_pairwise _ _ _ hperm hpw1 hpw2 ?_
    intro p hp1 q hq1 hrpq hrqp
    obtain ⟨mp, hmp, hmpe⟩ := List.mem_map.mp hp1
    obtain ⟨mq, hmq, hmqe⟩ := List.mem_map.mp hq1
    have hmpa : mp ∈ la := (sortByName_perm la).subset hmp
    have hmqa : mq ∈ la := (sortByName_perm la).subset hmq
    have hname : p.1 = q.1 := String.ext (charsLe_antisymm _ _ hrpq hrqp)
    refine Prod.ext hname ?_
    rw [← hmpe, ← hmqe] at hname ⊢
    exact hcons mp hmpa mq hmqa hname
  have hline : ∀ l : List FileMember,
      l.map (fun x => x.name ++ ":" ++ toString x.size)
        = ((l.map fun m => (m.name, m.size)).map
            fun pr => pr.1 ++ ":" ++ toString pr.2) := by
    intro l
    rw [List.map_map]
    rfl
  rw [contentString, contentString, hline (sortByName la),
    hline (sortByName lb), heq]

/-- Witness for the amended C9 at a concrete permutation pair. -/
theorem C9_witness :
    content_hash [⟨"b/0/f", 2, "p"⟩, ⟨"a/1/g", 1, "q"⟩]
      = content_hash [⟨"a/1/g", 1, "q"⟩, ⟨"b/0/f", 2, "p"⟩] :=
  C9_content_hash_of_perm _ _ (List.Perm.swap _ _ _) (by decide)

end Tecken
